import Mathlib

/-!
Verification development for the `fairpy` fair-division demo repository.

The repository under verification ships a demonstration notebook
(`demo.ipynb`) exercising the library's two allocation algorithms,
`round_robin` and `iterated_maximum_matching`, on concrete valuation data,
and recording their golden outputs and INFO-level traces.  The algorithm
bodies themselves are not part of the source tree, so the definitions below
are modelled from the specification (each such definition says so in its
doc comment) and validated against the golden outputs recorded in the
notebook.

Conventions: agents and items are identified by their position (index) in
the canonical agent and item sequences of the `ValuationModel`; an
allocation is represented by the list of (agent index, item index)
assignment pairs in the order they were made.
-/

namespace FairDivision

/-- Modelled from the spec: the canonical `ValuationModel` — an ordered
sequence of agent labels, an ordered sequence of item labels, and a
rectangular matrix of values indexed by (agent position, item position).
The library code that builds it is absent from the source tree. -/
structure ValuationModel where
  agents : List String
  items : List String
  vals : List (List Int)
deriving DecidableEq

/-- Value of item `i` to agent `a` (positions in the canonical orders). -/
def ValuationModel.value (m : ValuationModel) (a i : Nat) : Int :=
  (m.vals.getD a []).getD i 0

/-- First maximum of `f` over a list: returns the earliest element whose
`f`-value is not exceeded by any other element (ties favour the earlier
position). -/
def argmaxBy {α : Type} (f : α → Int) : List α → Option α
  | [] => none
  | x :: rest =>
    match argmaxBy f rest with
    | none => some x
    | some y => if f x < f y then some y else some x

/-- Modelled from the spec: the round-robin loop.  Agents act cyclically in
`order`; each turn the acting agent takes the remaining eligible item of
maximal value to it, ties broken in favour of the earliest item; the loop
stops when no eligible item remains.  `fuel` bounds the number of turns
(one item is consumed per turn, so the initial item count suffices).
The library function `fairpy.items.round_robin` is absent from the source
tree. -/
def rrAux (val : Nat → Nat → Int) (order : List Nat) :
    Nat → Nat → List Nat → List (Nat × Nat)
  | 0, _, _ => []
  | fuel + 1, t, remaining =>
    if order.length = 0 then []
    else
      let a := order.getD (t % order.length) 0
      match argmaxBy (fun i => val a i) remaining with
      | none => []
      | some i => (a, i) :: rrAux val order fuel (t + 1) (remaining.erase i)

/-- Modelled from the spec: `round_robin` on a valuation model, an agent
order (list of agent positions) and an eligible item subset (list of item
positions, in canonical order). -/
def round_robin (m : ValuationModel) (order : List Nat) (itemIdxs : List Nat) :
    List (Nat × Nat) :=
  rrAux m.value order itemIdxs.length 0 itemIdxs

/-- The bundle of agent `a` in an allocation: the items assigned to `a`,
in assignment order. -/
def bundleOf (picks : List (Nat × Nat)) (a : Nat) : List Nat :=
  (picks.filter (fun p => p.1 == a)).map Prod.snd

/-- The value of agent `a`'s bundle under valuation `val` (each agent's
value is computed under its own valuation). -/
def bundleValue (val : Nat → Nat → Int) (picks : List (Nat × Nat)) (a : Nat) : Int :=
  (bundleOf picks a).foldr (fun i s => val a i + s) 0

/-- Lexicographic comparison of character lists (by code point). -/
def charListLe : List Char → List Char → Bool
  | [], _ => true
  | _ :: _, [] => false
  | a :: as, b :: bs =>
    if a.toNat < b.toNat then true
    else if b.toNat < a.toNat then false
    else charListLe as bs

/-- Lexicographic comparison of strings (by code point). -/
def strLe (a b : String) : Bool :=
  charListLe a.data b.data

/-- Insert a label into a lexicographically sorted list of labels. -/
def insertLabel (x : String) : List String → List String
  | [] => [x]
  | y :: ys => if strLe x y then x :: y :: ys else y :: insertLabel x ys

/-- Sort labels lexicographically (insertion sort). -/
def sortLabels : List String → List String
  | [] => []
  | x :: xs => insertLabel x (sortLabels xs)

/-- The labels of agent `a`'s bundle, listed in the model's canonical item
order. -/
def bundleLabels (m : ValuationModel) (picks : List (Nat × Nat)) (a : Nat) :
    List String :=
  ((List.range m.items.length).filter (fun i => decide (i ∈ bundleOf picks a))).map
    (fun i => m.items.getD i "")

/-- One line of the rendering: `<agent> gets {<labels comma-joined>} with
value <value>.` for an already-ordered label list. -/
def renderLine (name : String) (labels : List String) (v : Int) : String :=
  name ++ " gets \x7b" ++ String.intercalate "," labels ++
    "\x7d with value " ++ toString v ++ "."

/-- Modelled from the golden outputs of the demo notebook: the Allocation's
canonical rendering — one line per agent, agents in the model's canonical
order, with the bundle's item labels sorted lexicographically (as every
golden output of the notebook shows, e.g. `Ami gets \x7bblue,green\x7d …`).
The `fairpy.Allocation` rendering code is absent from the source tree. -/
def renderAlloc (m : ValuationModel) (picks : List (Nat × Nat)) : List String :=
  (List.range m.agents.length).map (fun a =>
    renderLine (m.agents.getD a "") (sortLabels (bundleLabels m picks a))
      (bundleValue m.value picks a))

/-- Modelled from the spec's words (for comparison with `renderAlloc`): the
same rendering but with the bundle's item labels in the model's canonical
item order, as §4.2/§6 of the spec prescribe. -/
def renderAllocSpecOrder (m : ValuationModel) (picks : List (Nat × Nat)) :
    List String :=
  (List.range m.agents.length).map (fun a =>
    renderLine (m.agents.getD a "") (bundleLabels m picks a)
      (bundleValue m.value picks a))

/-- Value of key `k` in an association row (0 when absent). -/
def assocValue (row : List (String × Int)) (k : String) : Int :=
  match row.find? (fun q => q.1 == k) with
  | some q => q.2
  | none => 0

/-- The canonical item labels of a nested-mapping input: the key sequence
of the first agent's row. -/
def nestedItems (d : List (String × List (String × Int))) : List String :=
  match d with
  | [] => []
  | p :: _ => p.2.map Prod.fst

/-- Modelled from the spec: normalization of the nested-mapping input shape
(agent label → item label → value).  The normalizer code is absent from the
source tree. -/
def normalizeNested (d : List (String × List (String × Int))) : ValuationModel :=
  { agents := d.map Prod.fst
    items := nestedItems d
    vals := d.map (fun p => (nestedItems d).map (fun it => assocValue p.2 it)) }

/-- Modelled from the spec: normalization of the labelled-vectors input
shape (agent label → ordered value sequence); item labels are synthesized
from positions. -/
def normalizeVectors (d : List (String × List Int)) : ValuationModel :=
  { agents := d.map Prod.fst
    items := (List.range ((d.head?.map (fun p => p.2.length)).getD 0)).map
      (fun i => toString i)
    vals := d.map Prod.snd }

/-- Modelled from the spec and the notebook's golden output (`Agent #0 gets
…`): normalization of the positional-matrix input shape; agent and item
labels are synthesized from positions. -/
def normalizeMatrix (rows : List (List Int)) : ValuationModel :=
  { agents := (List.range rows.length).map (fun a => "Agent #" ++ toString a)
    items := (List.range ((rows.head?.map List.length).getD 0)).map
      (fun i => toString i)
    vals := rows }

/-- Errors of the allocation engine (only the one exercised by the claims). -/
inductive AllocError
  | invalidOrder
deriving DecidableEq

/-- An agent order is valid when it is a permutation of the model's agent
positions: it references only model agents, omits none and duplicates
none. -/
def validAgentOrder (n : Nat) (order : List Nat) : Bool :=
  decide (List.Perm order (List.range n))

/-- Modelled from the spec: `round_robin` with validation of the
`agent_order` parameter — fails with `InvalidOrderError` when the order
references an agent not in the model, omits an agent or duplicates one. -/
def round_robin_checked (m : ValuationModel) (order : List Nat)
    (itemIdxs : List Nat) : Except AllocError (List (Nat × Nat)) :=
  if validAgentOrder m.agents.length order then
    Except.ok (round_robin m order itemIdxs)
  else Except.error AllocError.invalidOrder

/-- A structured trace event: the round-robin header (effective agent order
as positional indices, and the item collection), a round-robin per-pick
event (acting agent, item taken, its value to that agent), or an
iterated-matching per-round event. -/
inductive TraceEvent
  | header (order : List Nat) (itemIdxs : List Nat)
  | pick (agent item : Nat) (value : Int)
  | roundMatches (pairs : List (Nat × Nat))
deriving DecidableEq

/-- Modelled from the spec: the round-robin loop instrumented with trace
emission.  `emitInfo` reflects whether the INFO level is enabled; the trace
is a pure side channel accumulated alongside the picks. -/
def rrTracedAux (emitInfo : Bool) (val : Nat → Nat → Int) (order : List Nat) :
    Nat → Nat → List Nat → List (Nat × Nat) × List TraceEvent
  | 0, _, _ => ([], [])
  | fuel + 1, t, remaining =>
    if order.length = 0 then ([], [])
    else
      let a := order.getD (t % order.length) 0
      match argmaxBy (fun i => val a i) remaining with
      | none => ([], [])
      | some i =>
        let rest := rrTracedAux emitInfo val order fuel (t + 1) (remaining.erase i)
        ((a, i) :: rest.1,
         (if emitInfo then [TraceEvent.pick a i (val a i)] else []) ++ rest.2)

/-- Modelled from the spec: traced `round_robin` — emits the header event
before the per-pick events of the loop. -/
def rrTraced (emitInfo : Bool) (m : ValuationModel) (order : List Nat)
    (itemIdxs : List Nat) : List (Nat × Nat) × List TraceEvent :=
  let core := rrTracedAux emitInfo m.value order itemIdxs.length 0 itemIdxs
  (core.1, (if emitInfo then [TraceEvent.header order itemIdxs] else []) ++ core.2)

/-- The Ami/Tami valuation data of the demo notebook:
items `green, red, blue, yellow`; `Ami: 8,7,6,5`; `Tami: 12,8,4,2`. -/
def amiTami : ValuationModel :=
  { agents := ["Ami", "Tami"]
    items := ["green", "red", "blue", "yellow"]
    vals := [[8, 7, 6, 5], [12, 8, 4, 2]] }

/-- The Alice/George valuation data of the demo notebook:
items `z, y, x, w, v, u`; `Alice: 12,10,8,7,4,1`; `George: 19,16,8,6,5,1`. -/
def aliceGeorge : ValuationModel :=
  { agents := ["Alice", "George"]
    items := ["z", "y", "x", "w", "v", "u"]
    vals := [[12, 10, 8, 7, 4, 1], [19, 16, 8, 6, 5, 1]] }

/-- All one-to-one (partial) assignments of the agents `0, …, n-1` to items
drawn from `remaining`: a list of length `n` whose entry at position `a` is
`some i` when agent `a` is matched to item `i` (items pairwise distinct) and
`none` when agent `a` is unmatched.  Enumeration order is by agent then item
canonical order, so the first maximum realises the spec's deterministic
tie-break. -/
def allMatchings : Nat → List Nat → List (List (Option Nat))
  | 0, _ => [[]]
  | n + 1, remaining =>
    remaining.flatMap (fun i =>
      (allMatchings n (remaining.erase i)).map (fun s => some i :: s)) ++
    (allMatchings n remaining).map (fun s => none :: s)

/-- Total matched value of an assignment whose first entry belongs to agent
`a0`. -/
def matchingValueFrom (val : Nat → Nat → Int) : Nat → List (Option Nat) → Int
  | _, [] => 0
  | a, none :: rest => matchingValueFrom val (a + 1) rest
  | a, some i :: rest => val a i + matchingValueFrom val (a + 1) rest

/-- Total matched value of an assignment (first entry is agent 0). -/
def matchingValue (val : Nat → Nat → Int) (s : List (Option Nat)) : Int :=
  matchingValueFrom val 0 s

/-- The (agent, item) pairs of an assignment whose first entry belongs to
agent `a0`. -/
def matchedPairsFrom : Nat → List (Option Nat) → List (Nat × Nat)
  | _, [] => []
  | a, none :: rest => matchedPairsFrom (a + 1) rest
  | a, some i :: rest => (a, i) :: matchedPairsFrom (a + 1) rest

/-- The (agent, item) pairs of an assignment. -/
def matchedPairs (s : List (Option Nat)) : List (Nat × Nat) :=
  matchedPairsFrom 0 s

/-- Modelled from the spec: one round of iterated maximum matching — the
maximum-total-value one-to-one assignment of the `n` agents to the remaining
items (ties broken by agent then item canonical order, realised by taking
the first maximum of the canonical enumeration).  The library function is
absent from the source tree. -/
def roundMatching (val : Nat → Nat → Int) (n : Nat) (remaining : List Nat) :
    List (Option Nat) :=
  (argmaxBy (matchingValue val) (allMatchings n remaining)).getD (List.replicate n none)

/-- Modelled from the spec: the iterated-maximum-matching loop — repeatedly
take a maximum-weight one-to-one matching between the `n` agents and the
currently unassigned items, assign the matched items, and recurse on the
rest; stop when no items remain or a round matches nothing.  `fuel` bounds
the number of rounds (each productive round consumes at least one item).
The library function `fairpy.items.iterated_maximum_matching` is absent
from the source tree. -/
def immAux (val : Nat → Nat → Int) (n : Nat) : Nat → List Nat → List (Nat × Nat)
  | 0, _ => []
  | fuel + 1, remaining =>
    if remaining = [] then []
    else
      if matchedPairs (roundMatching val n remaining) = [] then []
      else
        matchedPairs (roundMatching val n remaining) ++
          immAux val n fuel (remaining.filter (fun i =>
            decide (i ∉ (matchedPairs (roundMatching val n remaining)).map Prod.snd)))

/-- Modelled from the spec: `iterated_maximum_matching` over the full item
set of a valuation model. -/
def iterated_maximum_matching (m : ValuationModel) : List (Nat × Nat) :=
  immAux m.value m.agents.length m.items.length (List.range m.items.length)

/-- Modelled from the spec: the iterated-maximum-matching loop instrumented
with trace emission (one event per round). -/
def immTracedAux (emitInfo : Bool) (val : Nat → Nat → Int) (n : Nat) :
    Nat → List Nat → List (Nat × Nat) × List TraceEvent
  | 0, _ => ([], [])
  | fuel + 1, remaining =>
    if remaining = [] then ([], [])
    else
      if matchedPairs (roundMatching val n remaining) = [] then ([], [])
      else
        (matchedPairs (roundMatching val n remaining) ++
           (immTracedAux emitInfo val n fuel (remaining.filter (fun i =>
             decide (i ∉ (matchedPairs (roundMatching val n remaining)).map Prod.snd)))).1,
         (if emitInfo then
            [TraceEvent.roundMatches (matchedPairs (roundMatching val n remaining))]
          else []) ++
           (immTracedAux emitInfo val n fuel (remaining.filter (fun i =>
             decide (i ∉ (matchedPairs (roundMatching val n remaining)).map Prod.snd)))).2)

/-- Run of `round_robin` with the default parameters: the model's canonical agent
order and its full item set. -/
def round_robin_default (m : ValuationModel) : List (Nat × Nat) :=
  round_robin m (List.range m.agents.length) (List.range m.items.length)

/-- The Ami/Tami data in the nested-mapping input shape. -/
def amiTamiNested : List (String × List (String × Int)) :=
  [("Ami", [("green", 8), ("red", 7), ("blue", 6), ("yellow", 5)]),
   ("Tami", [("green", 12), ("red", 8), ("blue", 4), ("yellow", 2)])]

/-- The Ami/Tami data in the labelled-vectors input shape. -/
def amiTamiVectors : List (String × List Int) :=
  [("Ami", [8, 7, 6, 5]), ("Tami", [12, 8, 4, 2])]

/-- The Ami/Tami data in the positional-matrix input shape. -/
def amiTamiMatrix : List (List Int) :=
  [[8, 7, 6, 5], [12, 8, 4, 2]]

/-! ### Helper lemmas about `argmaxBy` -/

theorem argmaxBy_isSome {α : Type} (f : α → Int) (l : List α) (h : l ≠ []) :
    ∃ x, argmaxBy f l = some x := by
  cases l with
  | nil => exact absurd rfl h
  | cons a rest =>
    simp only [argmaxBy]
    cases argmaxBy f rest with
    | none => exact ⟨a, rfl⟩
    | some y =>
      by_cases hc : f a < f y
      · exact ⟨y, by simp [hc]⟩
      · exact ⟨a, by simp [hc]⟩

theorem argmaxBy_mem {α : Type} (f : α → Int) (l : List α) (x : α)
    (h : argmaxBy f l = some x) : x ∈ l := by
  induction l generalizing x with
  | nil => simp [argmaxBy] at h
  | cons a rest ih =>
    simp only [argmaxBy] at h
    cases hr : argmaxBy f rest with
    | none =>
      rw [hr] at h
      simp only [Option.some.injEq] at h
      simp [h.symm]
    | some y =>
      rw [hr] at h
      by_cases hc : f a < f y
      · simp only [hc, if_true, Option.some.injEq] at h
        exact List.mem_cons_of_mem _ (h ▸ ih y hr)
      · simp only [hc, if_false, Option.some.injEq] at h
        simp [h.symm]

theorem argmaxBy_isMax {α : Type} (f : α → Int) (l : List α) (x : α)
    (h : argmaxBy f l = some x) : ∀ y ∈ l, f y ≤ f x := by
  induction l generalizing x with
  | nil => simp [argmaxBy] at h
  | cons a rest ih =>
    simp only [argmaxBy] at h
    cases hr : argmaxBy f rest with
    | none =>
      rw [hr] at h
      simp only [Option.some.injEq] at h
      have hrest : rest = [] := by
        cases hrest : rest with
        | nil => rfl
        | cons b bs =>
          obtain ⟨z, hz⟩ := argmaxBy_isSome f (b :: bs) (by simp)
          rw [hrest, hz] at hr
          exact absurd hr (by simp)
      subst hrest
      intro y hy
      simp at hy
      simp [hy, h.symm]
    | some y =>
      rw [hr] at h
      by_cases hc : f a < f y
      · simp only [hc, if_true, Option.some.injEq] at h
        subst h
        intro z hz
        rcases List.mem_cons.mp hz with rfl | hz'
        · exact le_of_lt hc
        · exact ih y hr z hz'
      · simp only [hc, if_false, Option.some.injEq] at h
        subst h
        intro z hz
        rcases List.mem_cons.mp hz with rfl | hz'
        · exact le_refl _
        · exact le_trans (ih y hr z hz') (not_lt.mp hc)

theorem argmaxBy_first {α : Type} (f : α → Int) (l : List α) (x : α)
    (h : argmaxBy f l = some x) :
    ∃ l1 l2, l = l1 ++ x :: l2 ∧ ∀ y ∈ l1, f y < f x := by
  induction l generalizing x with
  | nil => simp [argmaxBy] at h
  | cons a rest ih =>
    simp only [argmaxBy] at h
    cases hr : argmaxBy f rest with
    | none =>
      rw [hr] at h
      simp only [Option.some.injEq] at h
      exact ⟨[], rest, by simp [h.symm], by simp⟩
    | some y =>
      rw [hr] at h
      by_cases hc : f a < f y
      · simp only [hc, if_true, Option.some.injEq] at h
        subst h
        obtain ⟨l1, l2, heq, hlt⟩ := ih y hr
        refine ⟨a :: l1, l2, by simp [heq], ?_⟩
        intro z hz
        rcases List.mem_cons.mp hz with rfl | hz'
        · exact hc
        · exact hlt z hz'
      · simp only [hc, if_false, Option.some.injEq] at h
        exact ⟨[], rest, by simp [h.symm], by simp⟩

/-! ### Helper lemmas about the round-robin loop -/

theorem rrAux_step (val : Nat → Nat → Int) (order : List Nat) (fuel t : Nat)
    (remaining : List Nat) (ho : order ≠ []) (hr : remaining ≠ []) :
    ∃ i, argmaxBy (fun j => val (order.getD (t % order.length) 0) j) remaining = some i ∧
      rrAux val order (fuel + 1) t remaining =
        (order.getD (t % order.length) 0, i) ::
          rrAux val order fuel (t + 1) (remaining.erase i) := by
  obtain ⟨i, hi⟩ :=
    argmaxBy_isSome (fun j => val (order.getD (t % order.length) 0) j) remaining hr
  have hlen : ¬ (order.length = 0) := fun hzero => ho (List.length_eq_zero.mp hzero)
  refine ⟨i, hi, ?_⟩
  simp only [rrAux, hlen, if_false, hi]

theorem rrAux_perm (val : Nat → Nat → Int) (order : List Nat) (ho : order ≠ []) :
    ∀ (n t : Nat) (remaining : List Nat), remaining.length = n →
      List.Perm ((rrAux val order n t remaining).map Prod.snd) remaining := by
  intro n
  induction n with
  | zero =>
    intro t remaining hlen
    rw [List.length_eq_zero.mp hlen]
    simp [rrAux]
  | succ k ih =>
    intro t remaining hlen
    have hr : remaining ≠ [] := by
      intro hempty
      rw [hempty] at hlen
      simp at hlen
    obtain ⟨i, hi, hstep⟩ := rrAux_step val order k t remaining ho hr
    rw [hstep]
    simp only [List.map_cons]
    have himem : i ∈ remaining := argmaxBy_mem _ _ _ hi
    have herase : (remaining.erase i).length = k := by
      rw [List.length_erase_of_mem himem, hlen]
      omega
    have hrec := ih (t + 1) (remaining.erase i) herase
    exact (hrec.cons i).trans (List.perm_cons_erase himem).symm

theorem nodup_snd_disjoint (picks : List (Nat × Nat))
    (h : (picks.map Prod.snd).Nodup) (a b i : Nat)
    (ha : (a, i) ∈ picks) (hb : (b, i) ∈ picks) : a = b := by
  induction picks with
  | nil => simp at ha
  | cons p rest ih =>
    simp only [List.map_cons, List.nodup_cons] at h
    rcases List.mem_cons.mp ha with hpa | ha' <;>
      rcases List.mem_cons.mp hb with hpb | hb'
    · injection hpa.trans hpb.symm
    · rw [← hpa] at h
      exact absurd (List.mem_map.mpr ⟨(b, i), hb', rfl⟩) h.1
    · rw [← hpb] at h
      exact absurd (List.mem_map.mpr ⟨(a, i), ha', rfl⟩) h.1
    · exact ih h.2 ha' hb'

/-! ### Helper lemmas about matchings -/

theorem filterMap_id_cons_some (i : Nat) (s : List (Option Nat)) :
    (some i :: s).filterMap id = i :: s.filterMap id := rfl

theorem filterMap_id_cons_none (s : List (Option Nat)) :
    (none :: s).filterMap id = s.filterMap id := rfl

theorem allMatchings_sound (n : Nat) (remaining : List Nat) (s : List (Option Nat))
    (hrnd : remaining.Nodup) (h : s ∈ allMatchings n remaining) :
    s.length = n ∧ (∀ i ∈ s.filterMap id, i ∈ remaining) ∧ (s.filterMap id).Nodup := by
  induction n generalizing remaining s with
  | zero =>
    simp only [allMatchings, List.mem_singleton] at h
    subst h
    simp
  | succ k ih =>
    simp only [allMatchings, List.mem_append, List.mem_flatMap, List.mem_map] at h
    rcases h with ⟨i, hi, s', hs', rfl⟩ | ⟨s', hs', rfl⟩
    · obtain ⟨hlen, hmem, hnd⟩ := ih (remaining.erase i) s' (hrnd.erase i) hs'
      refine ⟨by simp [hlen], ?_, ?_⟩
      · intro j hj
        rw [filterMap_id_cons_some] at hj
        rcases List.mem_cons.mp hj with rfl | hj'
        · exact hi
        · exact List.mem_of_mem_erase (hmem j hj')
      · rw [filterMap_id_cons_some]
        refine List.nodup_cons.mpr ⟨?_, hnd⟩
        intro hmem_i
        exact (hrnd.mem_erase_iff.mp (hmem i hmem_i)).1 rfl
    · obtain ⟨hlen, hmem, hnd⟩ := ih remaining s' hrnd hs'
      exact ⟨by simp [hlen], by simpa using hmem, by simpa using hnd⟩

theorem allMatchings_complete (n : Nat) (remaining : List Nat) (s : List (Option Nat))
    (hlen : s.length = n) (hmem : ∀ i ∈ s.filterMap id, i ∈ remaining)
    (hnd : (s.filterMap id).Nodup) : s ∈ allMatchings n remaining := by
  induction n generalizing remaining s with
  | zero =>
    rw [List.length_eq_zero.mp hlen]
    simp [allMatchings]
  | succ k ih =>
    cases s with
    | nil => simp at hlen
    | cons o rest =>
      simp only [List.length_cons, Nat.succ.injEq] at hlen
      cases o with
      | none =>
        simp only [allMatchings, List.mem_append, List.mem_map]
        right
        refine ⟨rest, ih remaining rest hlen ?_ ?_, rfl⟩
        · intro i hi
          exact hmem i (by simpa using hi)
        · simpa using hnd
      | some i =>
        rw [filterMap_id_cons_some] at hmem hnd
        have hnd' := List.nodup_cons.mp hnd
        simp only [allMatchings, List.mem_append, List.mem_flatMap, List.mem_map]
        left
        refine ⟨i, hmem i (List.mem_cons_self _ _), rest,
          ih (remaining.erase i) rest hlen ?_ hnd'.2, rfl⟩
        intro j hj
        have hji : j ≠ i := fun hji => hnd'.1 (hji ▸ hj)
        exact (List.mem_erase_of_ne hji).mpr (hmem j (List.mem_cons_of_mem _ hj))

theorem matchedPairsFrom_map_snd (a0 : Nat) (s : List (Option Nat)) :
    (matchedPairsFrom a0 s).map Prod.snd = s.filterMap id := by
  induction s generalizing a0 with
  | nil => simp [matchedPairsFrom]
  | cons o rest ih =>
    cases o with
    | none => simp [matchedPairsFrom, ih]
    | some i => simp [matchedPairsFrom, ih]

theorem matchingValueFrom_no_somes (val : Nat → Nat → Int) (a0 : Nat)
    (s : List (Option Nat)) (h : s.filterMap id = []) :
    matchingValueFrom val a0 s = 0 := by
  induction s generalizing a0 with
  | nil => rfl
  | cons o rest ih =>
    cases o with
    | none =>
      rw [filterMap_id_cons_none] at h
      simp [matchingValueFrom, ih (a0 + 1) h]
    | some i => simp at h

theorem filterMap_id_replicate_none (k : Nat) :
    (List.replicate k (none : Option Nat)).filterMap id = [] := by
  induction k with
  | zero => rfl
  | succ j ih => simp [List.replicate_succ, ih]

theorem roundMatching_mem (val : Nat → Nat → Int) (n : Nat) (remaining : List Nat) :
    roundMatching val n remaining ∈ allMatchings n remaining := by
  have hrepl : List.replicate n (none : Option Nat) ∈ allMatchings n remaining :=
    allMatchings_complete n remaining _ (by simp)
      (by simp [filterMap_id_replicate_none]) (by simp [filterMap_id_replicate_none])
  have hne : allMatchings n remaining ≠ [] := by
    intro h
    rw [h] at hrepl
    simp at hrepl
  obtain ⟨x, hx⟩ := argmaxBy_isSome (matchingValue val) (allMatchings n remaining) hne
  have : roundMatching val n remaining = x := by
    simp [roundMatching, hx]
  rw [this]
  exact argmaxBy_mem _ _ _ hx

theorem roundMatching_isMax (val : Nat → Nat → Int) (n : Nat) (remaining : List Nat)
    (s : List (Option Nat)) (hlen : s.length = n)
    (hmem : ∀ i ∈ s.filterMap id, i ∈ remaining) (hnd : (s.filterMap id).Nodup) :
    matchingValue val s ≤ matchingValue val (roundMatching val n remaining) := by
  have hs := allMatchings_complete n remaining s hlen hmem hnd
  have hne : allMatchings n remaining ≠ [] := by
    intro h
    rw [h] at hs
    simp at hs
  obtain ⟨x, hx⟩ := argmaxBy_isSome (matchingValue val) (allMatchings n remaining) hne
  have hrm : roundMatching val n remaining = x := by
    simp [roundMatching, hx]
  rw [hrm]
  exact argmaxBy_isMax _ _ _ hx s hs

theorem roundMatching_productive (val : Nat → Nat → Int) (n : Nat)
    (remaining : List Nat) (hn : 1 ≤ n) (hr : remaining ≠ [])
    (hpos : ∀ i ∈ remaining, 0 < val 0 i) :
    matchedPairs (roundMatching val n remaining) ≠ [] := by
  intro hps
  have hfm : (roundMatching val n remaining).filterMap id = [] := by
    have hsnd := matchedPairsFrom_map_snd 0 (roundMatching val n remaining)
    rw [matchedPairs] at hps
    rw [hps] at hsnd
    exact hsnd.symm
  have hval0 : matchingValue val (roundMatching val n remaining) = 0 :=
    matchingValueFrom_no_somes val 0 _ hfm
  obtain ⟨r0, rest, rfl⟩ := List.exists_cons_of_ne_nil hr
  obtain ⟨k, rfl⟩ := Nat.exists_eq_add_of_le hn
  have hcl : (some r0 :: List.replicate k (none : Option Nat)).length = 1 + k := by
    simp [Nat.add_comm]
  have hcfm : (some r0 :: List.replicate k (none : Option Nat)).filterMap id = [r0] := by
    simp [filterMap_id_replicate_none]
  have hcm : ∀ i ∈ (some r0 :: List.replicate k (none : Option Nat)).filterMap id,
      i ∈ r0 :: rest := by
    rw [hcfm]
    intro i hi
    simp only [List.mem_singleton] at hi
    simp [hi]
  have hcn : ((some r0 :: List.replicate k (none : Option Nat)).filterMap id).Nodup := by
    rw [hcfm]
    simp
  have hle := roundMatching_isMax val (1 + k) (r0 :: rest) _ hcl hcm hcn
  have hcv : matchingValue val (some r0 :: List.replicate k (none : Option Nat)) =
      val 0 r0 := by
    simp [matchingValue, matchingValueFrom,
      matchingValueFrom_no_somes val 1 _ (filterMap_id_replicate_none k)]
  rw [hval0, hcv] at hle
  exact absurd (lt_of_lt_of_le (hpos r0 (List.mem_cons_self r0 rest)) hle)
    (lt_irrefl 0)

theorem immAux_perm (val : Nat → Nat → Int) (n : Nat) (hn : 1 ≤ n) :
    ∀ (fuel : Nat) (remaining : List Nat), remaining.Nodup →
      remaining.length ≤ fuel → (∀ i ∈ remaining, 0 < val 0 i) →
      List.Perm ((immAux val n fuel remaining).map Prod.snd) remaining := by
  intro fuel
  induction fuel with
  | zero =>
    intro remaining hnd hlen hpos
    rw [List.length_eq_zero.mp (Nat.le_zero.mp hlen)]
    simp [immAux]
  | succ k ih =>
    intro remaining hnd hlen hpos
    by_cases hr : remaining = []
    · subst hr
      simp [immAux]
    · have hps_ne : matchedPairs (roundMatching val n remaining) ≠ [] :=
        roundMatching_productive val n remaining hn hr hpos
      set rm := roundMatching val n remaining with hrm
      set M := (matchedPairs rm).map Prod.snd with hM
      set remaining' := remaining.filter (fun i => decide (i ∉ M)) with hrem
      have hstep : immAux val n (k + 1) remaining =
          matchedPairs rm ++ immAux val n k remaining' := by
        simp only [immAux, if_neg hr, if_neg hps_ne]
      obtain ⟨-, hMsub, hMnd⟩ :=
        allMatchings_sound n remaining rm hnd (roundMatching_mem val n remaining)
      have hMfm : M = rm.filterMap id := by
        rw [hM, matchedPairs]
        exact matchedPairsFrom_map_snd 0 rm
      have hMsub' : ∀ i ∈ M, i ∈ remaining := by
        rw [hMfm]
        exact hMsub
      have hMnd' : M.Nodup := by
        rw [hMfm]
        exact hMnd
      have hMne : M ≠ [] := by
        intro h
        exact hps_ne (List.map_eq_nil_iff.mp (hM ▸ h))
      have hnd' : remaining'.Nodup := hnd.filter _
      have hlt : remaining'.length < remaining.length := by
        apply List.length_filter_lt_length_iff_exists.mpr
        obtain ⟨m0, hm0⟩ := List.exists_mem_of_ne_nil M hMne
        exact ⟨m0, hMsub' m0 hm0, by simpa using hm0⟩
      have hpos' : ∀ i ∈ remaining', 0 < val 0 i := by
        intro i hi
        rw [hrem] at hi
        exact hpos i (List.mem_filter.mp hi).1
      have hrec := ih remaining' hnd' (by omega) hpos'
      rw [hstep, List.map_append]
      have h1 : List.Perm (M ++ (immAux val n k remaining').map Prod.snd)
          (M ++ remaining') := List.Perm.append_left M hrec
      have hfilterM : List.Perm M (remaining.filter (fun i => decide (i ∈ M))) := by
        apply (List.perm_ext_iff_of_nodup hMnd' (hnd.filter _)).mpr
        intro x
        simp only [List.mem_filter, decide_eq_true_eq]
        exact ⟨fun hx => ⟨hMsub' x hx, hx⟩, fun hx => hx.2⟩
      have hsplit : List.Perm
          (remaining.filter (fun i => decide (i ∈ M)) ++ remaining') remaining := by
        have hperm := List.filter_append_perm (fun i => decide (i ∈ M)) remaining
        have hcongr : remaining' = remaining.filter (fun i => !(decide (i ∈ M))) := by
          rw [hrem]
          apply List.filter_congr
          intro a _
          simp [decide_not]
        rw [hcongr]
        exact hperm
      exact (h1.trans (hfilterM.append_right remaining')).trans hsplit

/-! ### Helper lemmas about the traced variants -/

theorem rrTracedAux_fst (emitInfo : Bool) (val : Nat → Nat → Int) (order : List Nat) :
    ∀ (fuel t : Nat) (remaining : List Nat),
      (rrTracedAux emitInfo val order fuel t remaining).1 =
        rrAux val order fuel t remaining := by
  intro fuel
  induction fuel with
  | zero => intro t remaining; rfl
  | succ k ih =>
    intro t remaining
    simp only [rrTracedAux, rrAux]
    by_cases ho : order.length = 0
    · simp [ho]
    · simp only [ho, if_false]
      cases hm : argmaxBy (fun i => val (order.getD (t % order.length) 0) i) remaining with
      | none => simp
      | some i => simp [ih]

theorem rrTracedAux_snd (val : Nat → Nat → Int) (order : List Nat) :
    ∀ (fuel t : Nat) (remaining : List Nat),
      (rrTracedAux true val order fuel t remaining).2 =
        (rrTracedAux true val order fuel t remaining).1.map
          (fun p => TraceEvent.pick p.1 p.2 (val p.1 p.2)) := by
  intro fuel
  induction fuel with
  | zero => intro t remaining; rfl
  | succ k ih =>
    intro t remaining
    simp only [rrTracedAux]
    by_cases ho : order.length = 0
    · simp [ho]
    · simp only [ho, if_false]
      cases hm : argmaxBy (fun i => val (order.getD (t % order.length) 0) i) remaining with
      | none => simp
      | some i => simp [ih]

theorem immTracedAux_fst (emitInfo : Bool) (val : Nat → Nat → Int) (n : Nat) :
    ∀ (fuel : Nat) (remaining : List Nat),
      (immTracedAux emitInfo val n fuel remaining).1 =
        immAux val n fuel remaining := by
  intro fuel
  induction fuel with
  | zero => intro remaining; rfl
  | succ k ih =>
    intro remaining
    simp only [immTracedAux, immAux]
    by_cases hr : remaining = []
    · simp [hr]
    · simp only [hr, if_false]
      by_cases hp : matchedPairs (roundMatching val n remaining) = []
      · simp [hp]
      · simp [hp, ih]

/-! ### Helper lemmas about normalization and order validation -/

theorem getD_mem {α : Type} (l : List α) (i : Nat) (d : α) (hi : i < l.length) :
    l.getD i d ∈ l := by
  rw [List.getD_eq_getElem?_getD, List.getElem?_eq_getElem hi]
  exact List.getElem_mem hi

theorem getD_map {α β : Type} (f : α → β) (l : List α) (i : Nat) (d0 : α) (db : β)
    (hi : i < l.length) : (l.map f).getD i db = f (l.getD i d0) := by
  have hi' : i < (l.map f).length := by simpa using hi
  rw [List.getD_eq_getElem?_getD, List.getElem?_eq_getElem hi',
    List.getD_eq_getElem?_getD, List.getElem?_eq_getElem hi]
  simp

theorem assocValue_getD (row : List (String × Int)) (i : Nat) (hi : i < row.length)
    (hnd : (row.map Prod.fst).Nodup) :
    assocValue row (row.getD i ("", 0)).1 = (row.getD i ("", 0)).2 := by
  induction row generalizing i with
  | nil => simp at hi
  | cons q rest ih =>
    cases i with
    | zero =>
      simp only [List.getD_cons_zero]
      have hf : List.find? (fun p => p.1 == q.1) (q :: rest) = some q :=
        List.find?_cons_of_pos _ (by simp)
      simp [assocValue, hf]
    | succ j =>
      simp only [List.getD_cons_succ]
      have hj : j < rest.length := by simpa using hi
      simp only [List.map_cons, List.nodup_cons] at hnd
      have hne : (rest.getD j ("", 0)).1 ≠ q.1 := by
        intro heq
        apply hnd.1
        rw [← heq]
        exact List.mem_map.mpr ⟨rest.getD j ("", 0), getD_mem rest j ("", 0) hj, rfl⟩
      have hf : List.find? (fun p => p.1 == (rest.getD j ("", 0)).1) (q :: rest) =
          List.find? (fun p => p.1 == (rest.getD j ("", 0)).1) rest :=
        List.find?_cons_of_neg _ (by
          simp only [beq_iff_eq]
          exact fun h => hne h.symm)
      have hstep : assocValue (q :: rest) (rest.getD j ("", 0)).1 =
          assocValue rest (rest.getD j ("", 0)).1 := by
        simp only [assocValue, hf]
      rw [hstep]
      exact ih j hj hnd.2

theorem normalizeVectors_value (d : List (String × List Int)) (a i : Nat)
    (ha : a < d.length) :
    (normalizeVectors d).value a i = ((d.getD a ("", [])).2).getD i 0 := by
  simp only [ValuationModel.value, normalizeVectors]
  rw [getD_map Prod.snd d a ("", []) [] ha]

theorem normalizeMatrix_value (rows : List (List Int)) (a i : Nat) :
    (normalizeMatrix rows).value a i = (rows.getD a []).getD i 0 := rfl

theorem normalizeNested_value (d : List (String × List (String × Int))) (a i : Nat)
    (ha : a < d.length)
    (hkeys : ((d.getD a ("", [])).2).map Prod.fst = nestedItems d)
    (hnd : (((d.getD a ("", [])).2).map Prod.fst).Nodup)
    (hi : i < ((d.getD a ("", [])).2).length) :
    (normalizeNested d).value a i = (((d.getD a ("", [])).2).getD i ("", 0)).2 := by
  simp only [ValuationModel.value, normalizeNested]
  rw [getD_map (fun p => (nestedItems d).map (fun it => assocValue p.2 it))
    d a ("", []) [] ha]
  rw [← hkeys]
  have hlen : i < (((d.getD a ("", [])).2).map Prod.fst).length := by simpa using hi
  rw [getD_map (fun it => assocValue (d.getD a ("", [])).2 it)
    (((d.getD a ("", [])).2).map Prod.fst) i "" 0 hlen]
  rw [getD_map Prod.fst ((d.getD a ("", [])).2) i ("", 0) "" hi]
  exact assocValue_getD ((d.getD a ("", [])).2) i hi hnd

theorem perm_range_iff (n : Nat) (order : List Nat) :
    List.Perm order (List.range n) ↔
      (∀ a ∈ order, a < n) ∧ order.Nodup ∧ (∀ a, a < n → a ∈ order) := by
  constructor
  · intro h
    refine ⟨?_, ?_, ?_⟩
    · intro a ha
      simpa [List.mem_range] using h.mem_iff.mp ha
    · exact h.symm.nodup (List.nodup_range n)
    · intro a ha
      exact h.mem_iff.mpr (List.mem_range.mpr ha)
  · rintro ⟨h1, h2, h3⟩
    apply (List.perm_ext_iff_of_nodup h2 (List.nodup_range n)).mpr
    intro a
    simp only [List.mem_range]
    exact ⟨h1 a, h3 a⟩

theorem getD_range (n a : Nat) (h : a < n) : (List.range n).getD a 0 = a := by
  rw [List.getD_eq_getElem?_getD, List.getElem?_eq_getElem (by simpa using h)]
  simp

/-! ### Claim theorems -/

/-- C1: For the Ami/Tami valuations, `round_robin` with the default agent
order `[Ami, Tami]` over all four items picks, in turn order, green for Ami
(value 8), red for Tami (value 8), blue for Ami (value 6) and yellow for
Tami (value 2), and returns an Allocation in which Ami's bundle is
green and blue with value 14 and Tami's bundle is red and yellow with
value 10.  (Item positions: green 0, red 1, blue 2, yellow 3.) -/
theorem claim_C1_round_robin_ami_tami :
    round_robin amiTami [0, 1] [0, 1, 2, 3] = [(0, 0), (1, 1), (0, 2), (1, 3)] ∧
    amiTami.value 0 0 = 8 ∧ amiTami.value 1 1 = 8 ∧
    amiTami.value 0 2 = 6 ∧ amiTami.value 1 3 = 2 ∧
    bundleOf (round_robin amiTami [0, 1] [0, 1, 2, 3]) 0 = [0, 2] ∧
    bundleOf (round_robin amiTami [0, 1] [0, 1, 2, 3]) 1 = [1, 3] ∧
    bundleValue amiTami.value (round_robin amiTami [0, 1] [0, 1, 2, 3]) 0 = 14 ∧
    bundleValue amiTami.value (round_robin amiTami [0, 1] [0, 1, 2, 3]) 1 = 10 := by
  refine ⟨by decide, by decide, by decide, by decide, by decide, by decide, by decide,
    by decide, by decide⟩

/-- C9: For the Ami/Tami valuations, `round_robin` with agent order
`[Tami, Ami]` and item subset `[green, red, blue]` assigns Tami green
(value 12) then blue (value 4) and Ami red (value 7); Ami's value is 7,
Tami's is 16, and the excluded item yellow (position 3) is assigned to
nobody. -/
theorem claim_C9_subset_run :
    round_robin amiTami [1, 0] [0, 1, 2] = [(1, 0), (0, 1), (1, 2)] ∧
    amiTami.value 1 0 = 12 ∧ amiTami.value 1 2 = 4 ∧ amiTami.value 0 1 = 7 ∧
    bundleValue amiTami.value (round_robin amiTami [1, 0] [0, 1, 2]) 0 = 7 ∧
    bundleValue amiTami.value (round_robin amiTami [1, 0] [0, 1, 2]) 1 = 16 ∧
    (3 : Nat) ∉ (round_robin amiTami [1, 0] [0, 1, 2]).map Prod.snd := by
  refine ⟨by decide, by decide, by decide, by decide, by decide, by decide, by decide⟩

/-- C2: In every round of `iterated_maximum_matching`, the set of
(agent, item) pairs assigned in that round is a maximum-total-value
one-to-one matching between the agents and the currently unassigned items
(first conjunct: no one-to-one assignment has strictly higher total value
than the round's chosen matching); the returned Allocation is the union of
these per-round matchings (second conjunct: the loop's step equation);
and in particular, on the Alice/George input it returns Alice's bundle
`u, w, y` (positions 5, 3, 1) with value 18 and George's bundle `v, x, z`
(positions 4, 2, 0) with value 32. -/
theorem claim_C2_iterated_matching_round_optimal :
    (∀ (val : Nat → Nat → Int) (n : Nat) (remaining : List Nat)
        (s : List (Option Nat)),
        s.length = n → (∀ i ∈ s.filterMap id, i ∈ remaining) →
        (s.filterMap id).Nodup →
        matchingValue val s ≤ matchingValue val (roundMatching val n remaining)) ∧
    (∀ (val : Nat → Nat → Int) (n fuel : Nat) (remaining : List Nat),
        remaining ≠ [] → matchedPairs (roundMatching val n remaining) ≠ [] →
        immAux val n (fuel + 1) remaining =
          matchedPairs (roundMatching val n remaining) ++
            immAux val n fuel (remaining.filter (fun i =>
              decide (i ∉ (matchedPairs (roundMatching val n remaining)).map
                Prod.snd)))) ∧
    iterated_maximum_matching aliceGeorge =
      [(0, 1), (1, 0), (0, 3), (1, 2), (0, 5), (1, 4)] ∧
    bundleOf (iterated_maximum_matching aliceGeorge) 0 = [1, 3, 5] ∧
    bundleOf (iterated_maximum_matching aliceGeorge) 1 = [0, 2, 4] ∧
    bundleValue aliceGeorge.value (iterated_maximum_matching aliceGeorge) 0 = 18 ∧
    bundleValue aliceGeorge.value (iterated_maximum_matching aliceGeorge) 1 = 32 := by
  refine ⟨?_, ?_, by decide, by decide, by decide, by decide, by decide⟩
  · intro val n remaining s hlen hmem hnd
    exact roundMatching_isMax val n remaining s hlen hmem hnd
  · intro val n fuel remaining hr hp
    simp only [immAux, if_neg hr, if_neg hp]

/-- C2 witness: the round-optimality conjunct instantiated on the
Alice/George data — the round's matching beats the concrete alternative
that gives z to Alice and y to George. -/
theorem claim_C2_witness :
    matchingValue aliceGeorge.value [some 0, some 1] ≤
      matchingValue aliceGeorge.value
        (roundMatching aliceGeorge.value 2 [0, 1, 2, 3, 4, 5]) :=
  claim_C2_iterated_matching_round_optimal.1 aliceGeorge.value 2 [0, 1, 2, 3, 4, 5]
    [some 0, some 1] (by decide) (by decide) (by decide)

/-- C3: `round_robin` has its agents act cyclically in the given order
(first conjunct: at turn `t` the acting agent is `order[t mod |order|]` and
the loop recurses on the remaining items less the picked one); the item
assigned is the remaining eligible item of maximal value to the acting
agent, ties broken in favour of the earliest remaining (canonical-order)
item (second conjunct, about `argmaxBy`); and the loop terminates exactly
when no eligible items remain (third and fourth conjuncts). -/
theorem claim_C3_round_robin_greedy :
    (∀ (val : Nat → Nat → Int) (order : List Nat) (fuel t : Nat)
        (remaining : List Nat), order ≠ [] → remaining ≠ [] →
        ∃ i, argmaxBy (fun j => val (order.getD (t % order.length) 0) j)
            remaining = some i ∧
          rrAux val order (fuel + 1) t remaining =
            (order.getD (t % order.length) 0, i) ::
              rrAux val order fuel (t + 1) (remaining.erase i)) ∧
    (∀ (α : Type) (f : α → Int) (l : List α) (x : α), argmaxBy f l = some x →
        x ∈ l ∧ (∀ y ∈ l, f y ≤ f x) ∧
        ∃ l1 l2, l = l1 ++ x :: l2 ∧ ∀ y ∈ l1, f y < f x) ∧
    (∀ (val : Nat → Nat → Int) (order : List Nat) (fuel t : Nat),
        rrAux val order fuel t [] = []) ∧
    (∀ (val : Nat → Nat → Int) (order : List Nat) (fuel t : Nat)
        (remaining : List Nat), order ≠ [] → remaining ≠ [] →
        rrAux val order (fuel + 1) t remaining ≠ []) := by
  refine ⟨?_, ?_, ?_, ?_⟩
  · intro val order fuel t remaining ho hr
    exact rrAux_step val order fuel t remaining ho hr
  · intro α f l x h
    exact ⟨argmaxBy_mem f l x h, argmaxBy_isMax f l x h, argmaxBy_first f l x h⟩
  · intro val order fuel t
    cases fuel <;> simp [rrAux, argmaxBy]
  · intro val order fuel t remaining ho hr
    obtain ⟨i, -, hstep⟩ := rrAux_step val order fuel t remaining ho hr
    rw [hstep]
    simp

/-- C3 witness: the step conjunct instantiated on the Ami/Tami data at the
first turn. -/
theorem claim_C3_witness :
    ∃ i, argmaxBy (fun j => amiTami.value (List.getD [0, 1] (0 % (List.length [0, 1])) 0) j)
        [0, 1, 2, 3] = some i ∧
      rrAux amiTami.value [0, 1] (3 + 1) 0 [0, 1, 2, 3] =
        (List.getD [0, 1] (0 % (List.length [0, 1])) 0, i) ::
          rrAux amiTami.value [0, 1] 3 (0 + 1) (List.erase [0, 1, 2, 3] i) :=
  claim_C3_round_robin_greedy.1 amiTami.value [0, 1] 3 0 [0, 1, 2, 3]
    (by decide) (by decide)

/-- C4: For every Allocation returned by `round_robin` (with at least one
agent in the order) the assigned items are exactly the given item subset
(first conjunct: the picked items are a permutation of the eligible items)
and the bundles are pairwise disjoint (second conjunct: an item belongs to
at most one agent); likewise for `iterated_maximum_matching` whenever
items can still be assigned to agents (at least one agent, and every
in-range value — agent position below the agent count, item position below
the item count — strictly positive: third and fourth conjuncts, over the
full item set). -/
theorem claim_C4_disjoint_conservation :
    (∀ (m : ValuationModel) (order itemIdxs : List Nat), order ≠ [] →
        List.Perm ((round_robin m order itemIdxs).map Prod.snd) itemIdxs) ∧
    (∀ (m : ValuationModel) (order itemIdxs : List Nat), order ≠ [] →
        itemIdxs.Nodup → ∀ a b i, (a, i) ∈ round_robin m order itemIdxs →
          (b, i) ∈ round_robin m order itemIdxs → a = b) ∧
    (∀ (m : ValuationModel), 1 ≤ m.agents.length →
        (∀ a i, a < m.agents.length → i < m.items.length → 0 < m.value a i) →
        List.Perm ((iterated_maximum_matching m).map Prod.snd)
          (List.range m.items.length)) ∧
    (∀ (m : ValuationModel), 1 ≤ m.agents.length →
        (∀ a i, a < m.agents.length → i < m.items.length → 0 < m.value a i) →
        ∀ a b i, (a, i) ∈ iterated_maximum_matching m →
          (b, i) ∈ iterated_maximum_matching m → a = b) := by
  refine ⟨?_, ?_, ?_, ?_⟩
  · intro m order itemIdxs ho
    simp only [round_robin]
    exact rrAux_perm m.value order ho itemIdxs.length 0 itemIdxs rfl
  · intro m order itemIdxs ho hnd a b i ha hb
    have hperm : List.Perm ((round_robin m order itemIdxs).map Prod.snd) itemIdxs := by
      simp only [round_robin]
      exact rrAux_perm m.value order ho itemIdxs.length 0 itemIdxs rfl
    exact nodup_snd_disjoint _ (hperm.symm.nodup hnd) a b i ha hb
  · intro m hn hpos
    simp only [iterated_maximum_matching]
    exact immAux_perm m.value m.agents.length hn m.items.length
      (List.range m.items.length) (List.nodup_range _) (by simp)
      (fun i hi => hpos 0 i hn (List.mem_range.mp hi))
  · intro m hn hpos a b i ha hb
    have hperm : List.Perm ((iterated_maximum_matching m).map Prod.snd)
        (List.range m.items.length) := by
      simp only [iterated_maximum_matching]
      exact immAux_perm m.value m.agents.length hn m.items.length
        (List.range m.items.length) (List.nodup_range _) (by simp)
        (fun j hj => hpos 0 j hn (List.mem_range.mp hj))
    exact nodup_snd_disjoint _ (hperm.symm.nodup (List.nodup_range _)) a b i ha hb

/-- C4 witness: conservation instantiated on the Ami/Tami default
`round_robin` run and on the Ami/Tami `iterated_maximum_matching` run,
whose in-range values are all positive. -/
theorem claim_C4_witness :
    List.Perm ((round_robin amiTami [0, 1] [0, 1, 2, 3]).map Prod.snd)
      [0, 1, 2, 3] ∧
    List.Perm ((iterated_maximum_matching amiTami).map Prod.snd)
      (List.range amiTami.items.length) :=
  ⟨claim_C4_disjoint_conservation.1 amiTami [0, 1] [0, 1, 2, 3] (by decide),
   claim_C4_disjoint_conservation.2.2.1 amiTami (by decide)
     (by
       intro a i ha hi
       have ha2 : a < 2 := by simpa [amiTami] using ha
       have hi4 : i < 4 := by simpa [amiTami] using hi
       interval_cases a <;> interval_cases i <;> decide)⟩

/-- C5 counterexample: the claim says the items inside the braces are
ordered by the model's canonical item order, but the rendering recorded in
the notebook's golden output orders them lexicographically.  On the
Ami/Tami default run, Ami's bundle in canonical item order is
`green, blue`, yet the rendering (matching the notebook's golden output
`Ami gets \x7bblue,green\x7d with value 14.`) lists `blue,green`; the
canonical-order rendering prescribed by the spec differs from the
program's rendering at this concrete input. -/
theorem claim_C5_counterexample :
    renderAlloc amiTami (round_robin amiTami [0, 1] [0, 1, 2, 3]) =
      ["Ami gets \x7bblue,green\x7d with value 14.",
       "Tami gets \x7bred,yellow\x7d with value 10."] ∧
    bundleLabels amiTami (round_robin amiTami [0, 1] [0, 1, 2, 3]) 0 =
      ["green", "blue"] ∧
    sortLabels (bundleLabels amiTami (round_robin amiTami [0, 1] [0, 1, 2, 3]) 0) =
      ["blue", "green"] ∧
    renderAllocSpecOrder amiTami (round_robin amiTami [0, 1] [0, 1, 2, 3]) ≠
      renderAlloc amiTami (round_robin amiTami [0, 1] [0, 1, 2, 3]) := by
  refine ⟨by decide, by decide, by decide, by decide⟩

/-- C5 amended: the canonical rendering lists agents in the model's
canonical order, one line per agent, of the exact form
`<agent> gets \x7b<items>\x7d with value <value>.`, where the items inside
the braces are comma-joined and ordered lexicographically by label (not by
the model's canonical item order).  Concretely it reproduces the three
golden outputs of the notebook; structurally there is one line per agent
(fourth conjunct) and line `a` is the exact form for agent `a` (fifth
conjunct). -/
theorem claim_C5_amended :
    renderAlloc amiTami (round_robin amiTami [0, 1] [0, 1, 2, 3]) =
      ["Ami gets \x7bblue,green\x7d with value 14.",
       "Tami gets \x7bred,yellow\x7d with value 10."] ∧
    renderAlloc amiTami (round_robin amiTami [1, 0] [0, 1, 2]) =
      ["Ami gets \x7bred\x7d with value 7.",
       "Tami gets \x7bblue,green\x7d with value 16."] ∧
    renderAlloc aliceGeorge (iterated_maximum_matching aliceGeorge) =
      ["Alice gets \x7bu,w,y\x7d with value 18.",
       "George gets \x7bv,x,z\x7d with value 32."] ∧
    (∀ (m : ValuationModel) (picks : List (Nat × Nat)),
        (renderAlloc m picks).length = m.agents.length) ∧
    (∀ (m : ValuationModel) (picks : List (Nat × Nat)) (a : Nat),
        a < m.agents.length →
        (renderAlloc m picks).getD a "" =
          renderLine (m.agents.getD a "") (sortLabels (bundleLabels m picks a))
            (bundleValue m.value picks a)) := by
  refine ⟨by decide, by decide, by decide, ?_, ?_⟩
  · intro m picks
    simp [renderAlloc]
  · intro m picks a ha
    simp only [renderAlloc]
    rw [getD_map _ (List.range m.agents.length) a 0 "" (by simpa using ha)]
    rw [getD_range m.agents.length a ha]

/-- C5 witness: the per-line form instantiated on the Ami/Tami default
run. -/
theorem claim_C5_witness :
    (renderAlloc amiTami (round_robin amiTami [0, 1] [0, 1, 2, 3])).getD 0 "" =
      renderLine (amiTami.agents.getD 0 "")
        (sortLabels (bundleLabels amiTami (round_robin amiTami [0, 1] [0, 1, 2, 3]) 0))
        (bundleValue amiTami.value (round_robin amiTami [0, 1] [0, 1, 2, 3]) 0) :=
  claim_C5_amended.2.2.2.2 amiTami (round_robin amiTami [0, 1] [0, 1, 2, 3]) 0
    (by decide)

/-- C6: `round_robin` with an `agent_order` parameter succeeds exactly when
the order references only agents of the model, omits none and duplicates
none; otherwise it fails with the invalid-order error. -/
theorem claim_C6_invalid_order (m : ValuationModel) (order itemIdxs : List Nat) :
    (round_robin_checked m order itemIdxs =
        Except.ok (round_robin m order itemIdxs) ↔
      (∀ a ∈ order, a < m.agents.length) ∧ order.Nodup ∧
        (∀ a, a < m.agents.length → a ∈ order)) ∧
    (round_robin_checked m order itemIdxs =
        Except.error AllocError.invalidOrder ↔
      ¬ ((∀ a ∈ order, a < m.agents.length) ∧ order.Nodup ∧
        (∀ a, a < m.agents.length → a ∈ order))) := by
  have hv : validAgentOrder m.agents.length order = true ↔
      (∀ a ∈ order, a < m.agents.length) ∧ order.Nodup ∧
        (∀ a, a < m.agents.length → a ∈ order) := by
    rw [validAgentOrder, decide_eq_true_eq]
    exact perm_range_iff m.agents.length order
  by_cases h : validAgentOrder m.agents.length order = true
  · refine ⟨?_, ?_⟩
    · unfold round_robin_checked
      rw [if_pos h]
      exact iff_of_true rfl (hv.mp h)
    · unfold round_robin_checked
      rw [if_pos h]
      exact iff_of_false (fun hcontra => Except.noConfusion hcontra)
        (fun hcontra => hcontra (hv.mp h))
  · have hnot : ¬ ((∀ a ∈ order, a < m.agents.length) ∧ order.Nodup ∧
        (∀ a, a < m.agents.length → a ∈ order)) := fun hc => h (hv.mpr hc)
    refine ⟨?_, ?_⟩
    · unfold round_robin_checked
      rw [if_neg h]
      exact iff_of_false (fun hcontra => Except.noConfusion hcontra) hnot
    · unfold round_robin_checked
      rw [if_neg h]
      exact iff_of_true rfl hnot

/-- C6 witness: the valid order `[1, 0]` on the Ami/Tami model succeeds,
and its validity conditions follow. -/
theorem claim_C6_witness :
    (∀ a ∈ [1, 0], a < amiTami.agents.length) ∧ List.Nodup [1, 0] ∧
      (∀ a, a < amiTami.agents.length → a ∈ [1, 0]) :=
  (claim_C6_invalid_order amiTami [1, 0] [0, 1, 2]).1.mp (by rfl)

/-- C7: the three accepted input shapes normalize losslessly — re-exposing
the normalized model reproduces the original values exactly (first three
conjuncts: matrix, labelled vectors, nested mapping for a well-formed
rectangular input; the nested normalization of the Ami/Tami mapping gives
exactly the canonical Ami/Tami model) — and `round_robin` on the
labelled-vectors and matrix forms of the Ami/Tami values produces
Allocations with identical bundle structure and identical agent values,
matching the notebook's golden outputs (differing only in label naming:
`Ami`/`Tami` against `Agent #0`/`Agent #1`). -/
theorem claim_C7_shape_equivalence :
    (∀ (rows : List (List Int)) (a i : Nat),
        (normalizeMatrix rows).value a i = (rows.getD a []).getD i 0) ∧
    (∀ (d : List (String × List Int)) (a i : Nat), a < d.length →
        (normalizeVectors d).value a i = ((d.getD a ("", [])).2).getD i 0) ∧
    (∀ (d : List (String × List (String × Int))) (a i : Nat), a < d.length →
        ((d.getD a ("", [])).2).map Prod.fst = nestedItems d →
        (((d.getD a ("", [])).2).map Prod.fst).Nodup →
        i < ((d.getD a ("", [])).2).length →
        (normalizeNested d).value a i = (((d.getD a ("", [])).2).getD i ("", 0)).2) ∧
    normalizeNested amiTamiNested = amiTami ∧
    round_robin_default (normalizeVectors amiTamiVectors) =
      round_robin_default (normalizeMatrix amiTamiMatrix) ∧
    round_robin_default (normalizeVectors amiTamiVectors) =
      [(0, 0), (1, 1), (0, 2), (1, 3)] ∧
    bundleValue (normalizeVectors amiTamiVectors).value
      (round_robin_default (normalizeVectors amiTamiVectors)) 0 = 14 ∧
    bundleValue (normalizeVectors amiTamiVectors).value
      (round_robin_default (normalizeVectors amiTamiVectors)) 1 = 10 ∧
    bundleValue (normalizeMatrix amiTamiMatrix).value
      (round_robin_default (normalizeMatrix amiTamiMatrix)) 0 = 14 ∧
    bundleValue (normalizeMatrix amiTamiMatrix).value
      (round_robin_default (normalizeMatrix amiTamiMatrix)) 1 = 10 ∧
    renderAlloc (normalizeVectors amiTamiVectors)
      (round_robin_default (normalizeVectors amiTamiVectors)) =
      ["Ami gets \x7b0,2\x7d with value 14.",
       "Tami gets \x7b1,3\x7d with value 10."] ∧
    renderAlloc (normalizeMatrix amiTamiMatrix)
      (round_robin_default (normalizeMatrix amiTamiMatrix)) =
      ["Agent #0 gets \x7b0,2\x7d with value 14.",
       "Agent #1 gets \x7b1,3\x7d with value 10."] := by
  refine ⟨?_, ?_, ?_, by decide, by decide, by decide, by decide, by decide,
    by decide, by decide, by decide, by decide⟩
  · intro rows a i
    exact normalizeMatrix_value rows a i
  · intro d a i ha
    exact normalizeVectors_value d a i ha
  · intro d a i ha hkeys hnd hi
    exact normalizeNested_value d a i ha hkeys hnd hi

/-- C7 witness: the labelled-vectors round-trip instantiated at Tami's
value for item 2. -/
theorem claim_C7_witness :
    (normalizeVectors amiTamiVectors).value 1 2 =
      ((amiTamiVectors.getD 1 ("", [])).2).getD 2 0 :=
  claim_C7_shape_equivalence.2.1 amiTamiVectors 1 2 (by decide)

/-- C8: trace emission never affects the computed result — for every input
and parameters, the allocation component of a traced run is independent of
whether trace events are materialized (listeners attached / INFO enabled),
and equals the allocation of the untraced run, for both algorithms. -/
theorem claim_C8_trace_noninterference :
    (∀ (e1 e2 : Bool) (m : ValuationModel) (order itemIdxs : List Nat),
        (rrTraced e1 m order itemIdxs).1 = (rrTraced e2 m order itemIdxs).1) ∧
    (∀ (e : Bool) (m : ValuationModel) (order itemIdxs : List Nat),
        (rrTraced e m order itemIdxs).1 = round_robin m order itemIdxs) ∧
    (∀ (e1 e2 : Bool) (val : Nat → Nat → Int) (n fuel : Nat)
        (remaining : List Nat),
        (immTracedAux e1 val n fuel remaining).1 =
          (immTracedAux e2 val n fuel remaining).1) ∧
    (∀ (e : Bool) (val : Nat → Nat → Int) (n fuel : Nat) (remaining : List Nat),
        (immTracedAux e val n fuel remaining).1 = immAux val n fuel remaining) := by
  have hrr : ∀ (e : Bool) (m : ValuationModel) (order itemIdxs : List Nat),
      (rrTraced e m order itemIdxs).1 = round_robin m order itemIdxs := by
    intro e m order itemIdxs
    simp only [rrTraced, round_robin]
    exact rrTracedAux_fst e m.value order itemIdxs.length 0 itemIdxs
  refine ⟨?_, hrr, ?_, ?_⟩
  · intro e1 e2 m order itemIdxs
    rw [hrr e1, hrr e2]
  · intro e1 e2 val n fuel remaining
    rw [immTracedAux_fst e1, immTracedAux_fst e2]
  · intro e val n fuel remaining
    exact immTracedAux_fst e val n fuel remaining

/-- C10: with INFO tracing enabled, a `round_robin` run emits first a
single header event carrying the effective agent order (positional
indices) and the item collection, strictly before any per-pick event, and
then one per-pick event per assignment, in assignment order, each naming
the acting agent, the item taken and its value to that agent; concretely,
the Ami/Tami default run's trace is the header followed by the four pick
events of the notebook. -/
theorem claim_C10_trace_order :
    (∀ (m : ValuationModel) (order itemIdxs : List Nat),
        (rrTraced true m order itemIdxs).2 =
          TraceEvent.header order itemIdxs ::
            (rrTraced true m order itemIdxs).1.map
              (fun p => TraceEvent.pick p.1 p.2 (m.value p.1 p.2))) ∧
    (rrTraced true amiTami [0, 1] [0, 1, 2, 3]).2 =
      [TraceEvent.header [0, 1] [0, 1, 2, 3],
       TraceEvent.pick 0 0 8, TraceEvent.pick 1 1 8,
       TraceEvent.pick 0 2 6, TraceEvent.pick 1 3 2] := by
  refine ⟨?_, by decide⟩
  intro m order itemIdxs
  simp only [rrTraced, if_pos rfl]
  rw [rrTracedAux_snd m.value order itemIdxs.length 0 itemIdxs]
  simp

end FairDivision
